import Mathlib

/- Verification of the vectorized path representation of
   src/manim/mobject/types/vectorized_mobject.py.

   Points are modelled as rational 3-vectors, point buffers as lists of
   points, and the VMobject state as a structure holding the point buffer
   together with its style attributes.  Methods become functions from the
   state (and their arguments) to a new state; methods that can raise an
   exception return an Option, with none standing for the raised error.

   Helper functions of the repository that live outside the single source
   file (utils/bezier.py, utils/iterables.py, utils/space_ops.py and the
   Mobject base class) are modelled from the spec; each such definition
   carries a doc comment starting with "Modelled from the spec". -/

abbrev Point : Type := ℚ × ℚ × ℚ

abbrev RGBA : Type := ℚ × ℚ × ℚ × ℚ

abbrev Quad : Type := Point × Point × Point × Point

def pt0 : Point := (0, 0, 0)

/-- List of the four control points of a cubic bezier quad, in order. -/
def quad_points (q : Quad) : List Point := [q.1, q.2.1, q.2.2.1, q.2.2.2]

/-- Modelled from the spec: `interpolate` of utils/bezier.py on scalars,
`result = (1-alpha)*source + alpha*target`. -/
def lerp1 (a b t : ℚ) : ℚ := (1 - t) * a + t * b

/-- Componentwise linear interpolation of two points. -/
def lerp (p q : Point) (t : ℚ) : Point :=
  (lerp1 p.1 q.1 t, lerp1 p.2.1 q.2.1 t, lerp1 p.2.2 q.2.2 t)

/-- Componentwise linear interpolation of two RGBA tuples. -/
def lerp_rgba (p q : RGBA) (t : ℚ) : RGBA :=
  (lerp1 p.1 q.1 t, lerp1 p.2.1 q.2.1 t, lerp1 p.2.2.1 q.2.2.1 t, lerp1 p.2.2.2 q.2.2.2 t)

/-- Modelled from the spec: `interpolate` applied to two parallel RGBA
arrays interpolates entrywise. -/
def lerp_rgbas (p q : List RGBA) (t : ℚ) : List RGBA :=
  List.zipWith (fun a b => lerp_rgba a b t) p q

/-- Keep-left half of one de Casteljau pass: the control points of the
restriction of the cubic to the parameter range `[0, t]`. -/
def bezier_split_left (q : Quad) (t : ℚ) : Quad :=
  let a := lerp q.1 q.2.1 t
  let b := lerp q.2.1 q.2.2.1 t
  let c := lerp q.2.2.1 q.2.2.2 t
  let d := lerp a b t
  let e := lerp b c t
  let f := lerp d e t
  (q.1, a, d, f)

/-- Keep-right half of one de Casteljau pass: the control points of the
restriction of the cubic to the parameter range `[t, 1]`. -/
def bezier_split_right (q : Quad) (t : ℚ) : Quad :=
  let a := lerp q.1 q.2.1 t
  let b := lerp q.2.1 q.2.2.1 t
  let c := lerp q.2.2.1 q.2.2.2 t
  let d := lerp a b t
  let e := lerp b c t
  let f := lerp d e t
  (f, e, c, q.2.2.2)

/-- Modelled from the spec: `splitCurve(quad, a, b)` (the source's
`partial_bezier_points` of utils/bezier.py) returns the cubic quad
representing the original curve restricted to the parameter range `[a,b]`,
computed via two passes of de Casteljau linear interpolation: trim the
upper bound, then rescale and trim the lower bound on the result. -/
def bezier_portion (q : Quad) (a b : ℚ) : Quad :=
  bezier_split_right (bezier_split_left q b) (a / b)

/-- Modelled from the spec: `integerInterpolate(0,n,x)` of utils/bezier.py
returns `index = min(floor(x*n), n-1)` and `residue = x*n - index` (so the
convention that `x=1` yields `index = n-1`, `residue = 1` holds). -/
def integer_interpolate (n : ℕ) (x : ℚ) : ℤ × ℚ :=
  let index : ℤ := min ⌊x * (n : ℚ)⌋ ((n : ℤ) - 1)
  (index, x * (n : ℚ) - (index : ℚ))

/-- Chunk a point buffer into its complete cubic bezier quads, dropping the
remainder; this is `gen_cubic_bezier_tuples_from_points`. -/
def get_cubic_bezier_tuples_from_points : List Point → List Quad
  | p0 :: p1 :: p2 :: p3 :: rest =>
      (p0, p1, p2, p3) :: get_cubic_bezier_tuples_from_points rest
  | _ => []

/-- Number of range-elements mapped onto curve `k` by
`repeat_indices = (np.arange(target) * curr) // target`; the source counts
`sum(repeat_indices == i)` for each `i`. -/
def split_factors_fn (curr target k : ℕ) : ℕ :=
  ((List.range target).filter (fun i => i * curr / target == k)).length

/-- The list `split_factors` of `insert_n_curves_to_point_list`. -/
def split_factors (curr target : ℕ) : List ℕ :=
  (List.range curr).map (split_factors_fn curr target)

/-- Subdivision of one quad into `sf` consecutive sub-curves at the evenly
spaced parameters `alphas = np.linspace(0, 1, sf + 1)`. -/
def curve_block (quad : Quad) (sf : ℕ) : List Point :=
  ((List.range sf).map
    (fun j : ℕ =>
      quad_points (bezier_portion quad ((j : ℚ) / (sf : ℚ)) (((j : ℚ) + 1) / (sf : ℚ))))).flatten

/-- The source's `insert_n_curves_to_point_list`: a 1-point buffer is
repeated `4*n` times (`np.repeat(points, nppcc * n, 0)`); otherwise every
quad `k` is replaced by `split_factors[k]` sub-curves. -/
def insert_n_curves_to_point_list (n : ℕ) (points : List Point) : List Point :=
  if points.length = 1 then
    List.replicate (4 * n) points.headI
  else
    let bezier_quads := get_cubic_bezier_tuples_from_points points
    let curr_num := bezier_quads.length
    let target_num := curr_num + n
    ((bezier_quads.zip (split_factors curr_num target_num)).map
      (fun qs => curve_block qs.1 qs.2)).flatten

/-- State of a VMobject: the point buffer together with the style
attributes used by the alignment and interpolation operations. -/
structure VMobject where
  points : List Point
  fill_rgbas : List RGBA
  stroke_rgbas : List RGBA
  background_stroke_rgbas : List RGBA
  stroke_width : ℚ
  background_stroke_width : ℚ
  sheen_direction : Point
  sheen_factor : ℚ
  tolerance_for_point_equality : ℚ

def set_points (m : VMobject) (ps : List Point) : VMobject := { m with points := ps }

def clear_points (m : VMobject) : VMobject := { m with points := [] }

def append_points (m : VMobject) (new_points : List Point) : VMobject :=
  { m with points := m.points ++ new_points }

def start_new_path (m : VMobject) (point : Point) : VMobject :=
  append_points m [point]

def has_new_path_started (m : VMobject) : Bool :=
  m.points.length % 4 == 1

def get_last_point (m : VMobject) : Point :=
  m.points.getLastD pt0

def get_num_curves (m : VMobject) : ℕ := m.points.length / 4

/-- The length invariant of the data model: `L mod 4` is 0 or 1. -/
def path_invariant (ps : List Point) : Prop :=
  ps.length % 4 = 0 ∨ ps.length % 4 = 1

instance (ps : List Point) : Decidable (path_invariant ps) := by
  unfold path_invariant; infer_instance

/-- The source's `pointwise_become_partial` (PartialCurveExtractor): the
caller's buffer is replaced by the portion of `vmobject`'s path lying in
the fractional range `[a,b]` of its curve count. -/
def pointwise_become_partial (self vmobject : VMobject) (a b : ℚ) : VMobject :=
  if a ≤ 0 ∧ 1 ≤ b then set_points self vmobject.points
  else
    let bezier_quads := get_cubic_bezier_tuples_from_points vmobject.points
    let num_cubics := bezier_quads.length
    let lower := integer_interpolate num_cubics a
    let upper := integer_interpolate num_cubics b
    let lower_index : ℕ := lower.1.toNat
    let lower_residue : ℚ := lower.2
    let upper_index : ℕ := upper.1.toNat
    let upper_residue : ℚ := upper.2
    let self := clear_points self
    if num_cubics = 0 then self
    else if lower_index = upper_index then
      append_points self
        (quad_points (bezier_portion (bezier_quads.getD lower_index default) lower_residue upper_residue))
    else
      let s1 := append_points self
        (quad_points (bezier_portion (bezier_quads.getD lower_index default) lower_residue 1))
      let s2 := ((bezier_quads.drop (lower_index + 1)).take (upper_index - (lower_index + 1))).foldl
        (fun acc quad => append_points acc (quad_points quad)) s1
      append_points s2
        (quad_points (bezier_portion (bezier_quads.getD upper_index default) 0 upper_residue))

/-- CLAIM C5: for `a ≤ 0` and `b ≥ 1`, `pointwise_become_partial` sets the
caller's point buffer to exactly the source's point buffer, regardless of
the source's curve count or subpath structure. -/
theorem thm_c5_full_range_identity (self vmobject : VMobject) (a b : ℚ)
    (ha : a ≤ 0) (hb : 1 ≤ b) :
    ( pointwise_become_partial self vmobject a b).points = vmobject.points := by
  unfold pointwise_become_partial
  rw [if_pos ⟨ha, hb⟩]
  rfl

def c5_self : VMobject :=
  ⟨[pt0], [], [], [], 0, 0, pt0, 0, 1 / 1000000⟩

def c5_source : VMobject :=
  ⟨[((0 : ℚ), 0, 0), ((1 : ℚ), 0, 0), ((2 : ℚ), 0, 0), ((3 : ℚ), 0, 0),
    ((3 : ℚ), 0, 0), ((4 : ℚ), 0, 0), ((5 : ℚ), 0, 0), ((6 : ℚ), 0, 0)],
   [], [], [], 0, 0, pt0, 0, 1 / 1000000⟩

/-- Witness for C5 at the concrete full range `[0, 1]`. -/
theorem wit_c5_full_range_identity :
    (0 : ℚ) ≤ 0 ∧ (1 : ℚ) ≤ 1 ∧
      ( pointwise_become_partial c5_self c5_source 0 1).points = c5_source.points :=
  ⟨le_refl 0, le_refl 1, thm_c5_full_range_identity c5_self c5_source 0 1 (by norm_num) (by norm_num)⟩

/-- CLAIM C3 counterexample: inserting 0 curves into the single-point list
`[p]` yields the empty list (`np.repeat` makes `4*n` copies), not the
`4*(0+1) = 4` points the claim demands. -/
theorem cex_c3_single_point_insert :
    ¬ (insert_n_curves_to_point_list 0 [pt0]).length = 4 * (0 + 1) := by
  decide

/-- CLAIM C3 as amended: `insert_n_curves_to_point_list n [p]` returns `n`
(not `n+1`) repeated copies of the degenerate point-curve, i.e. `4*n`
points all equal to `p`. -/
theorem thm_c3_single_point_insert_amended (n : ℕ) (p : Point) :
    insert_n_curves_to_point_list n [p] = List.replicate (4 * n) p := by
  unfold insert_n_curves_to_point_list
  rfl

def pt_add (p q : Point) : Point := (p.1 + q.1, p.2.1 + q.2.1, p.2.2 + q.2.2)

def pt_sub (p q : Point) : Point := (p.1 - q.1, p.2.1 - q.2.1, p.2.2 - q.2.2)

def pt_smul (c : ℚ) (p : Point) : Point := (c * p.1, c * p.2.1, c * p.2.2)

def pt_dot (p q : Point) : ℚ := p.1 * q.1 + p.2.1 * q.2.1 + p.2.2 * q.2.2

/-- Modelled from the spec: `rotate_vector(v, PI, axis)` of
utils/space_ops.py as used by the smooth-curve extension reflects the
previous segment's outgoing tangent through a half-turn rotation about the
vector to the new anchor: `R(v) = 2*(v.u/u.u)*u - v`. -/
def rotate_vector_half_turn (v axis : Point) : Point :=
  pt_sub (pt_smul (2 * pt_dot v axis / pt_dot axis axis) axis) v

/-- Modelled from the spec: curve-construction operations invoked on a
buffer with no points raise a precondition-violation error
(`throw_error_if_no_points` of the Mobject base class); the raised error is
modelled as none. -/
def add_cubic_bezier_curve_to (m : VMobject) (handle1 handle2 anchor : Point) : Option VMobject :=
  if m.points = [] then none
  else
    let new_points := [handle1, handle2, anchor]
    if has_new_path_started m then some (append_points m new_points)
    else some (append_points m ([get_last_point m] ++ new_points))

/-- The source's `add_line_to`: appends the three interpolation points at
`np.linspace(0, 1, 4)[1:] = [1/3, 2/3, 1]` between the last point and
`point`, forming a straight cubic. -/
def add_line_to (m : VMobject) (point : Point) : Option VMobject :=
  add_cubic_bezier_curve_to m
    (lerp (get_last_point m) point (1 / 3))
    (lerp (get_last_point m) point (2 / 3))
    (lerp (get_last_point m) point 1)

/-- Body of `add_smooth_curve_to` once the variadic arguments have been
split into an optional explicit handle and the new anchor. -/
def smooth_curve_core (m : VMobject) (handle2 : Option Point) (new_anchor : Point) : Option VMobject :=
  if has_new_path_started m then add_line_to m new_anchor
  else if m.points = [] then none
  else
    let last_h2 := m.points.getD (m.points.length - 2) pt0
    let last_a2 := m.points.getD (m.points.length - 1) pt0
    let last_tangent := pt_sub last_a2 last_h2
    let handle1 := pt_add last_a2 last_tangent
    let h2 := match handle2 with
      | some h => h
      | none =>
          pt_sub new_anchor (rotate_vector_half_turn last_tangent (pt_sub new_anchor last_a2))
    some (append_points m [last_a2, handle1, h2, new_anchor])

/-- The source's `add_smooth_curve_to`: with one point the argument is the
new anchor, with two points the first is an explicit handle; any other
number of points raises (modelled as none). -/
def add_smooth_curve_to (m : VMobject) (pts : List Point) : Option VMobject :=
  match pts with
  | [new_anchor] => smooth_curve_core m none new_anchor
  | [handle2, new_anchor] => smooth_curve_core m (some handle2) new_anchor
  | _ => none

lemma add_cubic_eq_none_iff (m : VMobject) (h1 h2 anchor : Point) :
    add_cubic_bezier_curve_to m h1 h2 anchor = none ↔ m.points = [] := by
  unfold add_cubic_bezier_curve_to
  by_cases hm : m.points = []
  · simp [hm]
  · simp only [hm, if_false]
    split <;> simp [hm]

lemma add_line_to_eq_none_iff (m : VMobject) (p : Point) :
    add_line_to m p = none ↔ m.points = [] := by
  unfold add_line_to
  exact add_cubic_eq_none_iff m _ _ _

lemma length_ne_zero_of_new_path (m : VMobject) (hb : has_new_path_started m = true) :
    m.points ≠ [] := by
  intro h
  unfold has_new_path_started at hb
  rw [h] at hb
  simp at hb

lemma smooth_core_eq_none_iff (m : VMobject) (handle2 : Option Point) (p : Point) :
    smooth_curve_core m handle2 p = none ↔ m.points = [] := by
  unfold smooth_curve_core
  by_cases hb : has_new_path_started m = true
  · have hne := length_ne_zero_of_new_path m hb
    simp [hb, add_line_to_eq_none_iff, hne]
  · simp only [Bool.not_eq_true] at hb
    by_cases hm : m.points = [] <;> simp [hb, hm]

/-- CLAIM C7: `add_smooth_curve_to` raises exactly when given a number of
extra points other than 1 or 2 or when the buffer is empty, and
`add_cubic_bezier_curve_to` raises exactly when the buffer is empty; in the
pure model a raising call produces no successor state, so the buffer held
by the caller is unchanged. -/
theorem thm_c7_error_conditions :
    (∀ (m : VMobject) (pts : List Point),
        add_smooth_curve_to m pts = none ↔
          (pts.length ≠ 1 ∧ pts.length ≠ 2) ∨ m.points = [])
    ∧ (∀ (m : VMobject) (h1 h2 anchor : Point),
        add_cubic_bezier_curve_to m h1 h2 anchor = none ↔ m.points = []) := by
  constructor
  · intro m pts
    match pts with
    | [] => simp [add_smooth_curve_to]
    | [p] => simp [add_smooth_curve_to, smooth_core_eq_none_iff]
    | [p, q] => simp [add_smooth_curve_to, smooth_core_eq_none_iff]
    | p :: q :: r :: rest => simp [add_smooth_curve_to]
  · exact add_cubic_eq_none_iff

/-- The source's `interpolate_color` (StyleInterpolator): each interpolated
attribute is set to the linear interpolation of the two owners' raw
attributes, then overwritten with the target's raw value when `alpha` is
exactly 1. -/
def interpolate_color (self mobject1 mobject2 : VMobject) (alpha : ℚ) : VMobject :=
  let fill := lerp_rgbas mobject1.fill_rgbas mobject2.fill_rgbas alpha
  let fill := if alpha = 1 then mobject2.fill_rgbas else fill
  let stroke := lerp_rgbas mobject1.stroke_rgbas mobject2.stroke_rgbas alpha
  let stroke := if alpha = 1 then mobject2.stroke_rgbas else stroke
  let bg_stroke := lerp_rgbas mobject1.background_stroke_rgbas mobject2.background_stroke_rgbas alpha
  let bg_stroke := if alpha = 1 then mobject2.background_stroke_rgbas else bg_stroke
  let sw := lerp1 mobject1.stroke_width mobject2.stroke_width alpha
  let sw := if alpha = 1 then mobject2.stroke_width else sw
  let bsw := lerp1 mobject1.background_stroke_width mobject2.background_stroke_width alpha
  let bsw := if alpha = 1 then mobject2.background_stroke_width else bsw
  let sd := lerp mobject1.sheen_direction mobject2.sheen_direction alpha
  let sd := if alpha = 1 then mobject2.sheen_direction else sd
  let sf := lerp1 mobject1.sheen_factor mobject2.sheen_factor alpha
  let sf := if alpha = 1 then mobject2.sheen_factor else sf
  { self with
      fill_rgbas := fill
      stroke_rgbas := stroke
      background_stroke_rgbas := bg_stroke
      stroke_width := sw
      background_stroke_width := bsw
      sheen_direction := sd
      sheen_factor := sf }

/-- CLAIM C8: style interpolation at `alpha = 1` sets every interpolated
attribute to exactly the target's raw attribute value, not the value of the
linear-interpolation formula. -/
theorem thm_c8_interpolate_color_alpha_one (self mobject1 mobject2 : VMobject) :
    (interpolate_color self mobject1 mobject2 1).fill_rgbas = mobject2.fill_rgbas
    ∧ (interpolate_color self mobject1 mobject2 1).stroke_rgbas = mobject2.stroke_rgbas
    ∧ (interpolate_color self mobject1 mobject2 1).background_stroke_rgbas
        = mobject2.background_stroke_rgbas
    ∧ (interpolate_color self mobject1 mobject2 1).stroke_width = mobject2.stroke_width
    ∧ (interpolate_color self mobject1 mobject2 1).background_stroke_width
        = mobject2.background_stroke_width
    ∧ (interpolate_color self mobject1 mobject2 1).sheen_direction = mobject2.sheen_direction
    ∧ (interpolate_color self mobject1 mobject2 1).sheen_factor = mobject2.sheen_factor := by
  simp [interpolate_color]

/-- Ceiling division on naturals, the value `ceil(a / c)` used to
characterize the fibers of `i * curr // target`. -/
def cdiv (a c : ℕ) : ℕ := (a + c - 1) / c

lemma lt_cdiv_iff (i a c : ℕ) (hc : 0 < c) : i < cdiv a c ↔ i * c < a := by
  unfold cdiv
  rw [Nat.lt_iff_add_one_le, Nat.le_div_iff_mul_le hc, add_mul, one_mul]
  omega

lemma cdiv_le_iff (i a c : ℕ) (hc : 0 < c) : cdiv a c ≤ i ↔ a ≤ i * c := by
  rw [← Nat.not_lt, lt_cdiv_iff i a c hc, Nat.not_lt]

lemma div_eq_iff_bounds (x T k : ℕ) (hT : 0 < T) :
    x / T = k ↔ k * T ≤ x ∧ x < (k + 1) * T := by
  constructor
  · intro h
    constructor
    · rw [← h]; exact Nat.div_mul_le_self x T
    · rw [← h]
      exact (Nat.div_lt_iff_lt_mul hT).mp (Nat.lt_succ_self _)
  · rintro ⟨h1, h2⟩
    have ha : k ≤ x / T := (Nat.le_div_iff_mul_le hT).mpr h1
    have hb : x / T < k + 1 := (Nat.div_lt_iff_lt_mul hT).mpr h2
    omega

lemma list_filter_length_eq_card (p : ℕ → Bool) (n : ℕ) :
    ((List.range n).filter p).length = ((Finset.range n).filter (fun i => p i = true)).card := by
  have h1 : ((Finset.range n).filter (fun i => p i = true)).card
      = Multiset.card (Multiset.filter (fun i => p i = true) (Multiset.range n)) := by
    rw [Finset.card_def, Finset.filter_val, Finset.range_val]
  rw [h1]
  have h2 : (Multiset.range n) = ((List.range n : List ℕ) : Multiset ℕ) := rfl
  rw [h2, Multiset.filter_coe, Multiset.coe_card]
  congr 1
  apply List.filter_congr
  intro x _
  simp

lemma split_factors_fn_eq_card (c T k : ℕ) :
    split_factors_fn c T k = ((Finset.range T).filter (fun i => i * c / T = k)).card := by
  unfold split_factors_fn
  rw [list_filter_length_eq_card]
  congr 1
  apply Finset.filter_congr
  intro x _
  simp

lemma fiber_eq_Ico (c T k : ℕ) (hc : 0 < c) (hk : k < c) (hcT : c ≤ T) :
    (Finset.range T).filter (fun i => i * c / T = k)
      = Finset.Ico (cdiv (k * T) c) (cdiv ((k + 1) * T) c) := by
  have hT : 0 < T := lt_of_lt_of_le hc hcT
  ext i
  simp only [Finset.mem_filter, Finset.mem_range, Finset.mem_Ico]
  rw [div_eq_iff_bounds (i * c) T k hT, cdiv_le_iff i (k * T) c hc,
    lt_cdiv_iff i ((k + 1) * T) c hc]
  constructor
  · rintro ⟨_, h1, h2⟩
    exact ⟨h1, h2⟩
  · rintro ⟨h1, h2⟩
    refine ⟨?_, h1, h2⟩
    have hstep : (k + 1) * T ≤ c * T := Nat.mul_le_mul_right T hk
    have : i * c < T * c := by
      calc i * c < (k + 1) * T := h2
        _ ≤ c * T := hstep
        _ = T * c := mul_comm c T
    exact Nat.lt_of_mul_lt_mul_right this

lemma split_factors_fn_eq (c T k : ℕ) (hc : 0 < c) (hk : k < c) (hcT : c ≤ T) :
    split_factors_fn c T k = cdiv ((k + 1) * T) c - cdiv (k * T) c := by
  rw [split_factors_fn_eq_card, fiber_eq_Ico c T k hc hk hcT, Nat.card_Ico]

lemma nat_lt_div_add_one_mul (a c : ℕ) (hc : 0 < c) : a < (a / c + 1) * c := by
  have h1 := Nat.div_add_mod a c
  have h2 : a % c < c := Nat.mod_lt a hc
  calc a = c * (a / c) + a % c := h1.symm
    _ < c * (a / c) + c := by omega
    _ = (a / c + 1) * c := by ring

lemma nat_add_div_le (A B c : ℕ) (hc : 0 < c) : (A + B) / c ≤ A / c + B / c + 1 := by
  have h : A + B < (A / c + B / c + 2) * c := by
    have hA := nat_lt_div_add_one_mul A c hc
    have hB := nat_lt_div_add_one_mul B c hc
    calc A + B < (A / c + 1) * c + (B / c + 1) * c := by omega
      _ = (A / c + B / c + 2) * c := by ring
  have := (Nat.div_lt_iff_lt_mul hc).mpr h
  omega

lemma nat_div_add_le (A B c : ℕ) (hc : 0 < c) : A / c + B / c ≤ (A + B) / c := by
  rw [Nat.le_div_iff_mul_le hc, add_mul]
  exact Nat.add_le_add (Nat.div_mul_le_self A c) (Nat.div_mul_le_self B c)

lemma split_factors_fn_le (c T k : ℕ) (hc : 0 < c) (hk : k < c) (hcT : c ≤ T) :
    split_factors_fn c T k ≤ T / c + 1 := by
  rw [split_factors_fn_eq c T k hc hk hcT]
  have hup : cdiv ((k + 1) * T) c ≤ cdiv (k * T) c + T / c + 1 := by
    unfold cdiv
    have h1 : (k + 1) * T + c - 1 = (k * T + c - 1) + T := by
      have : 1 ≤ c := hc
      ring_nf
      omega
    rw [h1]
    have := nat_add_div_le (k * T + c - 1) T c hc
    omega
  rw [Nat.sub_le_iff_le_add]
  omega

lemma split_factors_fn_ge (c T k : ℕ) (hc : 0 < c) (hk : k < c) (hcT : c ≤ T) :
    T / c ≤ split_factors_fn c T k := by
  rw [split_factors_fn_eq c T k hc hk hcT]
  have hlow : cdiv (k * T) c + T / c ≤ cdiv ((k + 1) * T) c := by
    unfold cdiv
    have h1 : (k + 1) * T + c - 1 = (k * T + c - 1) + T := by
      have : 1 ≤ c := hc
      ring_nf
      omega
    rw [h1]
    have h2 := nat_div_add_le (k * T + c - 1) T c hc
    omega
  exact Nat.le_sub_of_add_le (by omega)

lemma split_factors_fn_pos (c T k : ℕ) (hc : 0 < c) (hk : k < c) (hcT : c ≤ T) :
    1 ≤ split_factors_fn c T k := by
  rw [split_factors_fn_eq c T k hc hk hcT]
  have hlt : cdiv (k * T) c < cdiv ((k + 1) * T) c := by
    rw [lt_cdiv_iff _ _ _ hc]
    have h1 : cdiv (k * T) c * c ≤ k * T + c - 1 := by
      unfold cdiv
      exact Nat.div_mul_le_self _ c
    have h2 : k * T + c - 1 < (k + 1) * T := by
      have : (k + 1) * T = k * T + T := by ring
      omega
    omega
  omega

lemma sum_split_factors (c T : ℕ) (hc : 0 < c) (hcT : c ≤ T) :
    (split_factors c T).sum = T := by
  have hT : 0 < T := lt_of_lt_of_le hc hcT
  unfold split_factors
  have hbridge : ((List.range c).map (split_factors_fn c T)).sum
      = ∑ k in Finset.range c, split_factors_fn c T k := rfl
  rw [hbridge]
  have hfib : ∀ k ∈ Finset.range c, split_factors_fn c T k
      = ((Finset.range T).filter (fun i => i * c / T = k)).card := by
    intro k _
    exact split_factors_fn_eq_card c T k
  rw [Finset.sum_congr rfl hfib]
  have hmem : ∀ i ∈ Finset.range T, i * c / T ∈ Finset.range c := by
    intro i hi
    rw [Finset.mem_range] at hi ⊢
    rw [Nat.div_lt_iff_lt_mul hT]
    calc i * c < T * c := (Nat.mul_lt_mul_right hc).mpr hi
      _ = c * T := mul_comm T c
  have := Finset.card_eq_sum_card_fiberwise hmem
  rw [← this, Finset.card_range]

lemma tuples_length : ∀ ps : List Point,
    (get_cubic_bezier_tuples_from_points ps).length = ps.length / 4
  | p0 :: p1 :: p2 :: p3 :: rest => by
      simp only [get_cubic_bezier_tuples_from_points, List.length_cons]
      rw [tuples_length rest]
      omega
  | [] => by simp [get_cubic_bezier_tuples_from_points]
  | [p0] => by simp [get_cubic_bezier_tuples_from_points]
  | [p0, p1] => by simp [get_cubic_bezier_tuples_from_points]
  | [p0, p1, p2] => by simp [get_cubic_bezier_tuples_from_points]

lemma quad_points_length (q : Quad) : (quad_points q).length = 4 := rfl

lemma curve_block_length (q : Quad) (s : ℕ) : (curve_block q s).length = 4 * s := by
  unfold curve_block
  rw [List.length_flatten, List.map_map]
  have h : (List.length ∘ fun j : ℕ =>
      quad_points (bezier_portion q ((j : ℚ) / (s : ℚ)) (((j : ℚ) + 1) / (s : ℚ)))) = fun _ => 4 := by
    funext j
    rfl
  rw [h, List.map_const', List.length_range, List.sum_replicate, smul_eq_mul]
  omega

lemma sum_map_mul_left_nat (b : ℕ) : ∀ l : List ℕ, (l.map (fun x => b * x)).sum = b * l.sum
  | [] => by simp
  | x :: xs => by
      simp only [List.map_cons, List.sum_cons, sum_map_mul_left_nat b xs]
      ring

lemma split_factors_length (c T : ℕ) : (split_factors c T).length = c := by
  simp [split_factors]

lemma insert_length_eq (n : ℕ) (ps : List Point) (h1 : ps.length ≠ 1)
    (hc : 1 ≤ ps.length / 4) :
    (insert_n_curves_to_point_list n ps).length = 4 * (ps.length / 4 + n) := by
  unfold insert_n_curves_to_point_list
  rw [if_neg h1]
  have hq : (get_cubic_bezier_tuples_from_points ps).length = ps.length / 4 :=
    tuples_length ps
  rw [List.length_flatten, List.map_map]
  have hlen_eq :
      ((get_cubic_bezier_tuples_from_points ps).zip
          (split_factors (get_cubic_bezier_tuples_from_points ps).length
            ((get_cubic_bezier_tuples_from_points ps).length + n))).map
        (List.length ∘ fun qs : Quad × ℕ => curve_block qs.1 qs.2)
      = ((get_cubic_bezier_tuples_from_points ps).zip
          (split_factors (get_cubic_bezier_tuples_from_points ps).length
            ((get_cubic_bezier_tuples_from_points ps).length + n))).map
        (fun qs : Quad × ℕ => 4 * qs.2) := by
    apply List.map_congr_left
    intro qs _
    simp [Function.comp, curve_block_length]
  rw [hlen_eq]
  have hsplit : ((get_cubic_bezier_tuples_from_points ps).zip
      (split_factors (get_cubic_bezier_tuples_from_points ps).length
        ((get_cubic_bezier_tuples_from_points ps).length + n))).map
      (fun qs : Quad × ℕ => 4 * qs.2)
      = (((get_cubic_bezier_tuples_from_points ps).zip
          (split_factors (get_cubic_bezier_tuples_from_points ps).length
            ((get_cubic_bezier_tuples_from_points ps).length + n))).map Prod.snd).map
        (fun s => 4 * s) := by
    rw [List.map_map]
    rfl
  rw [hsplit, List.map_snd_zip, sum_map_mul_left_nat, sum_split_factors]
  · omega
  · omega
  · omega
  · rw [split_factors_length, hq]

lemma has_new_path_started_iff (m : VMobject) :
    has_new_path_started m = true ↔ m.points.length % 4 = 1 := by
  simp [has_new_path_started]

/-- CLAIM C2: for a point list of `4*curr` points (`curr ≥ 1` complete
curves) and any `n ≥ 0`, `insert_n_curves_to_point_list` returns exactly
`4*(curr+n)` points in which each original curve `k` is replaced by
`split_factor[k]` consecutive sub-curves, every split factor is at least 1,
the split factors sum to `curr+n`, and any two split factors differ by at
most one. -/
theorem thm_c2_insert_distribution (n curr : ℕ) (points : List Point)
    (hlen : points.length = 4 * curr) (hc : 1 ≤ curr) :
    (insert_n_curves_to_point_list n points).length = 4 * (curr + n)
    ∧ insert_n_curves_to_point_list n points
        = (((get_cubic_bezier_tuples_from_points points).zip (split_factors curr (curr + n))).map
            (fun qs : Quad × ℕ => curve_block qs.1 qs.2)).flatten
    ∧ (∀ qs : Quad × ℕ,
        qs ∈ (get_cubic_bezier_tuples_from_points points).zip (split_factors curr (curr + n)) →
          (curve_block qs.1 qs.2).length = 4 * qs.2)
    ∧ (∀ k, k < curr → 1 ≤ split_factors_fn curr (curr + n) k)
    ∧ (split_factors curr (curr + n)).sum = curr + n
    ∧ (∀ j k, j < curr → k < curr →
        split_factors_fn curr (curr + n) j ≤ split_factors_fn curr (curr + n) k + 1) := by
  have hne : points.length ≠ 1 := by omega
  have hdiv : points.length / 4 = curr := by omega
  have hq : (get_cubic_bezier_tuples_from_points points).length = curr := by
    rw [tuples_length points, hdiv]
  refine ⟨?_, ?_, ?_, ?_, ?_, ?_⟩
  · rw [insert_length_eq n points hne (by omega), hdiv]
  · unfold insert_n_curves_to_point_list
    rw [if_neg hne]
    show (((get_cubic_bezier_tuples_from_points points).zip
        (split_factors (get_cubic_bezier_tuples_from_points points).length
          ((get_cubic_bezier_tuples_from_points points).length + n))).map
        (fun qs : Quad × ℕ => curve_block qs.1 qs.2)).flatten = _
    rw [hq]
  · intro qs _
    exact curve_block_length qs.1 qs.2
  · intro k hk
    exact split_factors_fn_pos curr (curr + n) k (by omega) hk (by omega)
  · exact sum_split_factors curr (curr + n) (by omega) (by omega)
  · intro j k hj hk
    have h1 := split_factors_fn_le curr (curr + n) j (by omega) hj (by omega)
    have h2 := split_factors_fn_ge curr (curr + n) k (by omega) hk (by omega)
    omega

def c2_pts : List Point :=
  [((0 : ℚ), 0, 0), ((1 : ℚ), 0, 0), ((2 : ℚ), 0, 0), ((3 : ℚ), 0, 0),
   ((3 : ℚ), 0, 0), ((4 : ℚ), 0, 0), ((5 : ℚ), 0, 0), ((6 : ℚ), 0, 0)]

/-- Witness for C2: inserting 3 curves into a concrete 2-curve buffer. -/
theorem wit_c2_insert_distribution :
    c2_pts.length = 4 * 2 ∧ 1 ≤ 2 ∧
      (insert_n_curves_to_point_list 3 c2_pts).length = 4 * (2 + 3) :=
  ⟨by decide, by decide, (thm_c2_insert_distribution 3 2 c2_pts (by decide) (by decide)).1⟩

/-- The source's `insert_n_curves`: a dangling new-path point is removed,
the complete curves are subdivided, and the dangling point is re-appended
at the end. -/
def insert_n_curves (m : VMobject) (n : ℕ) : VMobject :=
  let new_path_point : Option Point :=
    if has_new_path_started m then some (get_last_point m) else none
  let new_points := insert_n_curves_to_point_list n m.points
  let m2 := set_points m new_points
  match new_path_point with
  | some p => append_points m2 [p]
  | none => m2

/-- CLAIM C10: for a buffer in the awaiting-completion state with `c ≥ 1`
complete curves (length `4*c+1`) and any `n ≥ 0`, `insert_n_curves`
subdivides only the complete curves and preserves the dangling point: the
result has length `4*(c+n)+1` and its last point is the old last point. -/
theorem thm_c10_insert_preserves_dangling (m : VMobject) (c n : ℕ)
    (hc : 1 ≤ c) (hlen : m.points.length = 4 * c + 1) :
    (insert_n_curves m n).points.length = 4 * (c + n) + 1
    ∧ (insert_n_curves m n).points.getLast? = m.points.getLast? := by
  have hb : has_new_path_started m = true := by
    rw [has_new_path_started_iff, hlen]
    omega
  have hne : m.points.length ≠ 1 := by omega
  have hdiv : m.points.length / 4 = c := by omega
  have hlast : m.points.getLast? = some (get_last_point m) := by
    have hnil : m.points ≠ [] := by
      intro h
      rw [h] at hlen
      simp at hlen
    obtain ⟨x, hx⟩ := Option.ne_none_iff_exists'.mp
      (mt List.getLast?_eq_none_iff.mp hnil)
    rw [hx]
    unfold get_last_point
    rw [List.getLastD_eq_getLast?, hx]
    rfl
  unfold insert_n_curves
  rw [hb]
  simp only [if_true]
  constructor
  · simp only [set_points, append_points, List.length_append]
    rw [insert_length_eq n m.points hne (by omega), hdiv]
    simp
  · simp only [set_points, append_points]
    rw [List.getLast?_concat, hlast]

def c10_m : VMobject :=
  ⟨[((0 : ℚ), 0, 0), ((1 : ℚ), 0, 0), ((2 : ℚ), 0, 0), ((3 : ℚ), 0, 0), ((4 : ℚ), 1, 0)],
   [], [], [], 0, 0, pt0, 0, 1 / 1000000⟩

/-- Witness for C10 on a concrete 1-curve buffer with a dangling point. -/
theorem wit_c10_insert_preserves_dangling :
    c10_m.points.length = 4 * 1 + 1 ∧ 1 ≤ 1 ∧
      (insert_n_curves c10_m 2).points.length = 4 * (1 + 2) + 1 ∧
      (insert_n_curves c10_m 2).points.getLast? = c10_m.points.getLast? :=
  ⟨by decide, by decide,
    (thm_c10_insert_preserves_dangling c10_m 1 2 (by decide) (by decide)).1,
    (thm_c10_insert_preserves_dangling c10_m 1 2 (by decide) (by decide)).2⟩

lemma bezier_portion_zero_one (q : Quad) : bezier_portion q 0 1 = q := by
  obtain ⟨⟨a1, a2, a3⟩, ⟨b1, b2, b3⟩, ⟨c1, c2, c3⟩, ⟨d1, d2, d3⟩⟩ := q
  simp only [bezier_portion, bezier_split_left, bezier_split_right, lerp, lerp1]
  norm_num

lemma bezier_portion_zero_zero (q : Quad) : bezier_portion q 0 0 = (q.1, q.1, q.1, q.1) := by
  obtain ⟨⟨a1, a2, a3⟩, ⟨b1, b2, b3⟩, ⟨c1, c2, c3⟩, ⟨d1, d2, d3⟩⟩ := q
  simp only [bezier_portion, bezier_split_left, bezier_split_right, lerp, lerp1]
  norm_num

def c4_self : VMobject := ⟨[pt0], [], [], [], 0, 0, pt0, 0, 1 / 1000000⟩

def c4_src : VMobject :=
  ⟨[((0 : ℚ), 0, 0), ((1 : ℚ), 0, 0), ((2 : ℚ), 0, 0), ((3 : ℚ), 0, 0),
    ((3 : ℚ), 0, 0), ((4 : ℚ), 0, 0), ((5 : ℚ), 0, 0), ((6 : ℚ), 0, 0),
    ((6 : ℚ), 0, 0), ((7 : ℚ), 0, 0), ((8 : ℚ), 0, 0), ((9 : ℚ), 0, 0)],
   [], [], [], 0, 0, pt0, 0, 1 / 1000000⟩

/-- Computation of `pointwise_become_partial source 0 (1/3)` on any
3-curve source: the first quad followed by a degenerate quad at the second
curve's start anchor. -/
lemma c4_partial_points (self vmobject : VMobject) (q0 q1 q2 : Quad)
    (hpts : vmobject.points = quad_points q0 ++ quad_points q1 ++ quad_points q2) :
    ( pointwise_become_partial self vmobject 0 (1 / 3)).points
      = quad_points q0 ++ List.replicate 4 q1.1 := by
  have hquads : get_cubic_bezier_tuples_from_points vmobject.points = [q0, q1, q2] := by
    obtain ⟨A, B, C, D⟩ := q0
    obtain ⟨E, F, G, H⟩ := q1
    obtain ⟨I, J, K, L⟩ := q2
    rw [hpts]
    rfl
  have hlow : integer_interpolate 3 (0 : ℚ) = ((0 : ℤ), (0 : ℚ)) := by
    norm_num [integer_interpolate]
  have hup : integer_interpolate 3 (1 / 3 : ℚ) = ((1 : ℤ), (0 : ℚ)) := by
    norm_num [integer_interpolate]
  unfold pointwise_become_partial
  rw [if_neg (by norm_num : ¬((0 : ℚ) ≤ 0 ∧ (1 : ℚ) ≤ 1 / 3))]
  rw [hquads]
  simp only [List.length_cons, List.length_nil, hlow, hup]
  norm_num
  simp only [bezier_portion_zero_one, bezier_portion_zero_zero]
  simp [append_points, clear_points, quad_points, List.replicate]

/-- CLAIM C4 counterexample: on a concrete 3-curve source,
`pointwise_become_partial(source, 0, 1/3)` does not produce exactly the
source's first quad; `integerInterpolate(0,3,1/3) = (1, 0)`, so the code
takes the multi-index branch and appends a degenerate quad after the first
quad, producing 8 points instead of 4. -/
theorem cex_c4_partial_one_third :
    ¬ ( pointwise_become_partial c4_self c4_src 0 (1 / 3)).points = c4_src.points.take 4 := by
  have h := c4_partial_points c4_self c4_src
    (((0 : ℚ), 0, 0), ((1 : ℚ), 0, 0), ((2 : ℚ), 0, 0), ((3 : ℚ), 0, 0))
    (((3 : ℚ), 0, 0), ((4 : ℚ), 0, 0), ((5 : ℚ), 0, 0), ((6 : ℚ), 0, 0))
    (((6 : ℚ), 0, 0), ((7 : ℚ), 0, 0), ((8 : ℚ), 0, 0), ((9 : ℚ), 0, 0)) rfl
  rw [h]
  decide

/-- CLAIM C4 as amended: for a source holding exactly 3 complete curves,
`pointwise_become_partial(source, 0, 1/3)` sets the caller's buffer to the
source's first quad followed by four copies of the second curve's start
anchor (a degenerate point-quad), 8 points in total. -/
theorem thm_c4_partial_one_third_amended (self vmobject : VMobject) (q0 q1 q2 : Quad)
    (hpts : vmobject.points = quad_points q0 ++ quad_points q1 ++ quad_points q2) :
    ( pointwise_become_partial self vmobject 0 (1 / 3)).points
      = quad_points q0 ++ List.replicate 4 q1.1 :=
  c4_partial_points self vmobject q0 q1 q2 hpts

/-- Witness for the amended C4 at a concrete 3-curve source. -/
theorem wit_c4_partial_one_third_amended :
    c4_src.points
        = quad_points (((0 : ℚ), 0, 0), ((1 : ℚ), 0, 0), ((2 : ℚ), 0, 0), ((3 : ℚ), 0, 0))
          ++ quad_points (((3 : ℚ), 0, 0), ((4 : ℚ), 0, 0), ((5 : ℚ), 0, 0), ((6 : ℚ), 0, 0))
          ++ quad_points (((6 : ℚ), 0, 0), ((7 : ℚ), 0, 0), ((8 : ℚ), 0, 0), ((9 : ℚ), 0, 0))
    ∧ ( pointwise_become_partial c4_self c4_src 0 (1 / 3)).points
        = quad_points (((0 : ℚ), 0, 0), ((1 : ℚ), 0, 0), ((2 : ℚ), 0, 0), ((3 : ℚ), 0, 0))
          ++ List.replicate 4 ((3 : ℚ), 0, 0) :=
  ⟨rfl, thm_c4_partial_one_third_amended c4_self c4_src
    (((0 : ℚ), 0, 0), ((1 : ℚ), 0, 0), ((2 : ℚ), 0, 0), ((3 : ℚ), 0, 0))
    (((3 : ℚ), 0, 0), ((4 : ℚ), 0, 0), ((5 : ℚ), 0, 0), ((6 : ℚ), 0, 0))
    (((6 : ℚ), 0, 0), ((7 : ℚ), 0, 0), ((8 : ℚ), 0, 0), ((9 : ℚ), 0, 0)) rfl⟩

/-- Absolute value of a rational, written so that it evaluates by kernel
reduction. -/
def qabs (x : ℚ) : ℚ := if x.num < 0 then -x else x

/-- The source's `consider_points_equals`: `np.allclose(p0, p1, atol=tol)`
with numpy's default `rtol = 1e-5`, i.e. componentwise
`|a - b| <= atol + rtol * |b|`. -/
def consider_points_equals (tol : ℚ) (p0 p1 : Point) : Bool :=
  decide (qabs (p0.1 - p1.1) ≤ tol + (1 / 100000) * qabs p1.1)
    && decide (qabs (p0.2.1 - p1.2.1) ≤ tol + (1 / 100000) * qabs p1.2.1)
    && decide (qabs (p0.2.2 - p1.2.2) ≤ tol + (1 / 100000) * qabs p1.2.2)

/-- The split predicate of `get_subpaths_from_points`: split at `n` when
the points at `n-1` and `n` are not considered equal. -/
def discontinuity_filter (tol : ℚ) (points : List Point) : ℕ → Bool :=
  fun n => !(consider_points_equals tol (points.getD (n - 1) pt0) (points.getD n pt0))

/-- The split-index list of `_gen_subpaths_from_points`:
`[0] + list(filter(filter_func, range(nppcc, len(points), nppcc))) + [len(points)]`. -/
def split_boundaries (points : List Point) (f : ℕ → Bool) : List ℕ :=
  0 :: (((List.range points.length).filter (fun n => n % 4 == 0 && n != 0)).filter f
    ++ [points.length])

/-- The point runs `points[i1:i2]` between consecutive split indices. -/
def runs_of_boundaries (points : List Point) (si : List ℕ) : List (List Point) :=
  (si.zip si.tail).map (fun p => (points.drop p.1).take (p.2 - p.1))

/-- The source's `_gen_subpaths_from_points`: the runs between consecutive
split indices, keeping those with at least `nppcc = 4` points. -/
def gen_subpaths_from_points (points : List Point) (f : ℕ → Bool) : List (List Point) :=
  (runs_of_boundaries points (split_boundaries points f)).filter
    (fun run => decide (4 ≤ run.length))

/-- The source's `get_subpaths_from_points`. -/
def get_subpaths_from_points (tol : ℚ) (points : List Point) : List (List Point) :=
  gen_subpaths_from_points points (discontinuity_filter tol points)

/-- All runs of `get_subpaths_from_points` before the length-4 filter. -/
def subpath_runs (tol : ℚ) (points : List Point) : List (List Point) :=
  runs_of_boundaries points (split_boundaries points (discontinuity_filter tol points))

/-- The source's `get_subpaths`, using the owner's tolerance. -/
def get_subpaths (m : VMobject) : List (List Point) :=
  get_subpaths_from_points m.tolerance_for_point_equality m.points

/-- Relation holding between consecutive split boundaries of a buffer of
length `L`. -/
def bnd_rel (L : ℕ) (a b : ℕ) : Prop :=
  a ≤ b ∧ b ≤ L ∧ a % 4 = 0 ∧ (b < L → b % 4 = 0 ∧ a < b)

lemma chain'_zip_tail {α : Type} {R : α → α → Prop} :
    ∀ (l : List α), List.Chain' R l → ∀ p ∈ l.zip l.tail, R p.1 p.2
  | [], _, p, hp => by simp at hp
  | [a], _, p, hp => by simp at hp
  | a :: b :: rest, h, p, hp => by
      rw [List.chain'_cons] at h
      simp only [List.tail_cons, List.zip_cons_cons, List.mem_cons] at hp
      rcases hp with h1 | h2
      · rw [h1]
        exact h.1
      · exact chain'_zip_tail (b :: rest) h.2 p (by simpa using h2)

lemma mids_mem (points : List Point) (f : ℕ → Bool) (x : ℕ)
    (hx : x ∈ ((List.range points.length).filter (fun n => n % 4 == 0 && n != 0)).filter f) :
    x % 4 = 0 ∧ x ≠ 0 ∧ x < points.length := by
  rw [List.mem_filter] at hx
  have hx1 := hx.1
  rw [List.mem_filter, List.mem_range] at hx1
  have hx2 := hx1.2
  simp only [Bool.and_eq_true, beq_iff_eq, bne_iff_ne, ne_eq] at hx2
  exact ⟨hx2.1, hx2.2, hx1.1⟩

lemma mids_pairwise (points : List Point) (f : ℕ → Bool) :
    (((List.range points.length).filter (fun n => n % 4 == 0 && n != 0)).filter f).Pairwise (· < ·) := by
  have h0 : (List.range points.length).Pairwise (· < ·) := List.pairwise_lt_range _
  exact (h0.filter _).filter _

lemma boundaries_pairwise (points : List Point) (f : ℕ → Bool) :
    (split_boundaries points f).Pairwise (bnd_rel points.length) := by
  unfold split_boundaries
  set L := points.length with hL
  set mids := ((List.range points.length).filter (fun n => n % 4 == 0 && n != 0)).filter f
    with hmids
  have hmem : ∀ x ∈ mids, x % 4 = 0 ∧ x ≠ 0 ∧ x < L := fun x hx => mids_mem points f x hx
  have hpw : mids.Pairwise (· < ·) := mids_pairwise points f
  rw [List.pairwise_cons]
  constructor
  · intro b hb
    rcases List.mem_append.mp hb with hbm | hbl
    · obtain ⟨h4, hne, hlt⟩ := hmem b hbm
      exact ⟨Nat.zero_le b, le_of_lt hlt, by omega, fun _ => ⟨h4, by omega⟩⟩
    · have hbL : b = L := by simpa using hbl
      exact ⟨Nat.zero_le b, by omega, by omega, fun h => by omega⟩
  · rw [List.pairwise_append]
    refine ⟨?_, by simp, ?_⟩
    · refine hpw.imp_of_mem ?_
      intro a b ha hb hab
      obtain ⟨ha4, hane, halt⟩ := hmem a ha
      obtain ⟨hb4, hbne, hblt⟩ := hmem b hb
      exact ⟨le_of_lt hab, le_of_lt hblt, ha4, fun _ => ⟨hb4, hab⟩⟩
    · intro a ha b hb
      have hbL : b = L := by simpa using hb
      obtain ⟨ha4, hane, halt⟩ := hmem a ha
      exact ⟨by omega, by omega, ha4, fun h => by omega⟩

lemma boundaries_zip_rel (points : List Point) (f : ℕ → Bool) :
    ∀ p ∈ (split_boundaries points f).zip (split_boundaries points f).tail,
      bnd_rel points.length p.1 p.2 :=
  chain'_zip_tail _ (boundaries_pairwise points f).chain'

lemma subpath_runs_shape (tol : ℚ) (ps : List Point) (r : List Point)
    (hr : r ∈ subpath_runs tol ps) :
    ∃ i1 i2 : ℕ, r = (ps.drop i1).take (i2 - i1) ∧ bnd_rel ps.length i1 i2 := by
  unfold subpath_runs runs_of_boundaries at hr
  rw [List.mem_map] at hr
  obtain ⟨p, hp, hval⟩ := hr
  exact ⟨p.1, p.2, hval.symm,
    boundaries_zip_rel ps (discontinuity_filter tol ps) p hp⟩

lemma run_length_of_bnd (ps : List Point) (i1 i2 : ℕ) (h : bnd_rel ps.length i1 i2) :
    ((ps.drop i1).take (i2 - i1)).length = i2 - i1 := by
  obtain ⟨h12, h2L, _, _⟩ := h
  rw [List.length_take, List.length_drop]
  omega

lemma subpath_runs_mod4 (tol : ℚ) (ps : List Point) (h4 : ps.length % 4 = 0)
    (r : List Point) (hr : r ∈ subpath_runs tol ps) :
    r.length % 4 = 0 := by
  obtain ⟨i1, i2, hval, hb⟩ := subpath_runs_shape tol ps r hr
  have hlen : r.length = i2 - i1 := by rw [hval]; exact run_length_of_bnd ps i1 i2 hb
  obtain ⟨h12, h2L, h14, hlt⟩ := hb
  by_cases hc : i2 < ps.length
  · obtain ⟨h24, _⟩ := hlt hc
    omega
  · have : i2 = ps.length := by omega
    omega

lemma take_drop_glue (ps : List Point) (a m : ℕ) (ham : a ≤ m) :
    (ps.drop a).take (m - a) ++ ps.drop m = ps.drop a := by
  have h : ps.drop m = (ps.drop a).drop (m - a) := by
    rw [List.drop_drop]
    congr 1
    omega
  rw [h, List.take_append_drop]

lemma flatten_runs (ps : List Point) :
    ∀ (mids : List ℕ) (a : ℕ),
      List.Chain' (· ≤ ·) (a :: mids ++ [ps.length]) →
      (((a :: mids ++ [ps.length]).zip (mids ++ [ps.length])).map
        (fun p => (ps.drop p.1).take (p.2 - p.1))).flatten = ps.drop a
  | [], a => by
      intro hch
      simp only [List.cons_append, List.nil_append, List.zip_cons_cons, List.zip_nil_right,
        List.map_cons, List.map_nil, List.flatten_cons, List.flatten_nil, List.append_nil]
      have hlen : (ps.drop a).length = ps.length - a := List.length_drop a ps
      apply List.take_of_length_le
      omega
  | m :: rest, a => by
      intro hch
      simp only [List.cons_append] at hch ⊢
      rw [List.chain'_cons] at hch
      have ham : a ≤ m := hch.1
      have ih := flatten_runs ps rest m hch.2
      simp only [List.cons_append] at ih
      simp only [List.cons_append, List.zip_cons_cons, List.map_cons, List.flatten_cons]
      rw [ih]
      exact take_drop_glue ps a m ham

lemma subpath_runs_flatten (tol : ℚ) (ps : List Point) :
    (subpath_runs tol ps).flatten = ps := by
  unfold subpath_runs runs_of_boundaries split_boundaries
  have hpw := boundaries_pairwise ps (discontinuity_filter tol ps)
  unfold split_boundaries at hpw
  have hch : List.Chain'
      (· ≤ ·) (0 :: (((List.range ps.length).filter (fun n => n % 4 == 0 && n != 0)).filter
        (discontinuity_filter tol ps) ++ [ps.length])) := by
    apply List.Pairwise.chain'
    exact hpw.imp (fun h => h.1)
  have := flatten_runs ps
    (((List.range ps.length).filter (fun n => n % 4 == 0 && n != 0)).filter
      (discontinuity_filter tol ps)) 0 hch
  simpa using this

lemma mem_snd_eq_last {α : Type} (L : ℕ) :
    ∀ (l : List (α × ℕ)), (∀ p ∈ l.dropLast, p.2 ≠ L) →
      ∀ p ∈ l, p.2 = L → l.getLast? = some p
  | [], _, p, hp, _ => by simp at hp
  | [x], _, p, hp, _ => by
      have hx : p = x := by simpa using hp
      rw [hx]
      rfl
  | x :: y :: rest, hdl, p, hp, hpL => by
      have hx : x ∈ (x :: y :: rest).dropLast := by
        rw [List.dropLast_cons₂]
        exact List.mem_cons_self x _
      rcases List.mem_cons.mp hp with h1 | h2
      · rw [h1] at hpL
        exact absurd hpL (hdl x hx)
      · have hdl2 : ∀ q ∈ (y :: rest).dropLast, q.2 ≠ L := by
          intro q hq
          apply hdl
          rw [List.dropLast_cons₂]
          exact List.mem_cons_of_mem x hq
        rw [List.getLast?_cons_cons]
        exact mem_snd_eq_last L (y :: rest) hdl2 p h2 hpL

lemma boundaries_pairs_dropLast (points : List Point) (f : ℕ → Bool) :
    ∀ p ∈ ((split_boundaries points f).zip (split_boundaries points f).tail).dropLast,
      p.2 ≠ points.length := by
  intro p hp
  have h1 : p.2 ∈ List.map Prod.snd
      (((split_boundaries points f).zip (split_boundaries points f).tail).dropLast) :=
    List.mem_map_of_mem Prod.snd hp
  rw [List.map_dropLast] at h1
  have hmap : List.map Prod.snd
      ((split_boundaries points f).zip (split_boundaries points f).tail)
      = (split_boundaries points f).tail := by
    apply List.map_snd_zip
    rw [List.length_tail]
    omega
  rw [hmap] at h1
  have htail : (split_boundaries points f).tail.dropLast
      = ((List.range points.length).filter (fun n => n % 4 == 0 && n != 0)).filter f := by
    unfold split_boundaries
    rw [List.tail_cons, List.dropLast_concat]
  rw [htail] at h1
  have := mids_mem points f p.2 h1
  omega

lemma subpath_short_run_is_last (tol : ℚ) (ps : List Point) (r : List Point)
    (hr : r ∈ subpath_runs tol ps) (hshort : r.length < 4) :
    (subpath_runs tol ps).getLast? = some r := by
  unfold subpath_runs runs_of_boundaries at hr ⊢
  rw [List.mem_map] at hr
  obtain ⟨p, hp, hval⟩ := hr
  have hb := boundaries_zip_rel ps (discontinuity_filter tol ps) p hp
  have hlen : r.length = p.2 - p.1 := by
    rw [← hval]
    exact run_length_of_bnd ps p.1 p.2 hb
  have hp2 : p.2 = ps.length := by
    by_contra hne
    have hlt : p.2 < ps.length := lt_of_le_of_ne hb.2.1 hne
    obtain ⟨h24, hlt12⟩ := hb.2.2.2 hlt
    have h14 := hb.2.2.1
    omega
  have hlast := mem_snd_eq_last ps.length _
    (boundaries_pairs_dropLast ps (discontinuity_filter tol ps)) p hp hp2
  rw [List.getLast?_map, hlast]
  simp [hval]

lemma split_boundaries_mem (tol : ℚ) (ps : List Point) (n : ℕ) :
    n ∈ split_boundaries ps (discontinuity_filter tol ps) ↔
      n = 0 ∨ n = ps.length ∨
        (n % 4 = 0 ∧ 0 < n ∧ n < ps.length ∧
          consider_points_equals tol (ps.getD (n - 1) pt0) (ps.getD n pt0) = false) := by
  unfold split_boundaries discontinuity_filter
  simp only [List.mem_cons, List.mem_append, List.mem_filter, List.mem_range,
    List.mem_singleton, List.not_mem_nil, or_false, Bool.and_eq_true, beq_iff_eq,
    bne_iff_ne, ne_eq, Bool.not_eq_true']
  constructor
  · rintro (h | ⟨⟨hlt, h4, hne⟩, hcpe⟩ | h)
    · exact Or.inl h
    · exact Or.inr (Or.inr ⟨h4, by omega, hlt, hcpe⟩)
    · exact Or.inr (Or.inl h)
  · rintro (h | h | ⟨h4, hpos, hlt, hcpe⟩)
    · exact Or.inl h
    · exact Or.inr (Or.inr h)
    · exact Or.inr (Or.inl ⟨⟨hlt, h4, by omega⟩, hcpe⟩)

def c9_seg1 : List Point :=
  [((0 : ℚ), 0, 0), ((1 : ℚ), 0, 0), ((2 : ℚ), 0, 0), ((3 : ℚ), 0, 0)]

def c9_seg2 : List Point :=
  [((10 : ℚ), 0, 0), ((11 : ℚ), 0, 0), ((12 : ℚ), 0, 0), ((13 : ℚ), 0, 0)]

def c9_pts : List Point := c9_seg1 ++ c9_seg2

/-- CLAIM C9: `get_subpaths_from_points` splits exactly at the
multiple-of-4 indices strictly between 0 and the length where consecutive
points differ by more than the owner's tolerance, returns the runs between
consecutive split indices in order (they reassemble the buffer), keeps
exactly the runs of length at least 4 (only the trailing run can be
shorter), and on a buffer made of two straight segments separated by a gap
exceeding tolerance it yields exactly 2 subpaths. -/
theorem thm_c9_subpath_decomposition :
    (∀ (tol : ℚ) (ps : List Point),
      get_subpaths_from_points tol ps
          = (subpath_runs tol ps).filter (fun run => decide (4 ≤ run.length))
      ∧ (subpath_runs tol ps).flatten = ps
      ∧ (∀ n, n ∈ split_boundaries ps (discontinuity_filter tol ps) ↔
          n = 0 ∨ n = ps.length ∨
            (n % 4 = 0 ∧ 0 < n ∧ n < ps.length ∧
              consider_points_equals tol (ps.getD (n - 1) pt0) (ps.getD n pt0) = false))
      ∧ (∀ r ∈ subpath_runs tol ps, r.length < 4 →
          (subpath_runs tol ps).getLast? = some r))
    ∧ get_subpaths_from_points (1 / 1000000) c9_pts = [c9_seg1, c9_seg2] := by
  constructor
  · intro tol ps
    exact ⟨rfl, subpath_runs_flatten tol ps, split_boundaries_mem tol ps,
      fun r hr hs => subpath_short_run_is_last tol ps r hr hs⟩
  · norm_num [get_subpaths_from_points, gen_subpaths_from_points, split_boundaries,
      runs_of_boundaries, discontinuity_filter, consider_points_equals, qabs,
      c9_pts, c9_seg1, c9_seg2, List.range_succ]

def c9w_pts : List Point := c9_seg1 ++ [((10 : ℚ), 0, 0), ((11 : ℚ), 0, 0)]

def c9w_run : List Point := [((10 : ℚ), 0, 0), ((11 : ℚ), 0, 0)]

/-- Witness for C9: the short-trailing-run clause at a concrete buffer of
six points whose trailing two-point run is dropped. -/
lemma c9w_runs_eval :
    subpath_runs (1 / 1000000) c9w_pts = [c9_seg1, c9w_run] := by
  norm_num [subpath_runs, split_boundaries, runs_of_boundaries, discontinuity_filter,
    consider_points_equals, qabs, c9w_pts, c9w_run, c9_seg1, List.range_succ]

theorem wit_c9_subpath_decomposition :
    c9w_run ∈ subpath_runs (1 / 1000000) c9w_pts ∧ c9w_run.length < 4 ∧
      (subpath_runs (1 / 1000000) c9w_pts).getLast? = some c9w_run :=
  ⟨by rw [c9w_runs_eval]; simp, by decide,
    (thm_c9_subpath_decomposition.1 (1 / 1000000) c9w_pts).2.2.2 c9w_run
      (by rw [c9w_runs_eval]; simp) (by decide)⟩

/-- Modelled from the spec: `stretch_array_to_length` of utils/iterables.py
maps target index `i` to source index `floor(i * srcLen / N)`, preserving
first and last entries. -/
def stretch_array_to_length (l : List RGBA) (length : ℕ) : List RGBA :=
  (List.range length).map (fun i => l.getD (i * l.length / length) default)

/-- One attribute of the source's `align_rgbas`: the shorter of the two
arrays is stretched to the longer one's length. -/
def align_rgbas_attr (a1 a2 : List RGBA) : List RGBA × List RGBA :=
  if a2.length < a1.length then (a1, stretch_array_to_length a2 a1.length)
  else if a1.length < a2.length then (stretch_array_to_length a1 a2.length, a2)
  else (a1, a2)

/-- The source's `align_rgbas` over the three rgba attributes. -/
def align_rgbas (self vmobject : VMobject) : VMobject × VMobject :=
  ({ self with
      fill_rgbas := (align_rgbas_attr self.fill_rgbas vmobject.fill_rgbas).1
      stroke_rgbas := (align_rgbas_attr self.stroke_rgbas vmobject.stroke_rgbas).1
      background_stroke_rgbas :=
        (align_rgbas_attr self.background_stroke_rgbas vmobject.background_stroke_rgbas).1 },
   { vmobject with
      fill_rgbas := (align_rgbas_attr self.fill_rgbas vmobject.fill_rgbas).2
      stroke_rgbas := (align_rgbas_attr self.stroke_rgbas vmobject.stroke_rgbas).2
      background_stroke_rgbas :=
        (align_rgbas_attr self.background_stroke_rgbas vmobject.background_stroke_rgbas).2 })

/-- Modelled from the spec: the owner's geometric center (`get_center` of
the Mobject base class), the midpoint of the coordinatewise extremes; only
the fact that it is a single point matters to alignment. -/
def get_center (m : VMobject) : Point :=
  match m.points with
  | [] => pt0
  | p :: ps =>
      ((((p :: ps).map (fun q : Point => q.1)).foldr max p.1
          + ((p :: ps).map (fun q : Point => q.1)).foldr min p.1) / 2,
       (((p :: ps).map (fun q : Point => q.2.1)).foldr max p.2.1
          + ((p :: ps).map (fun q : Point => q.2.1)).foldr min p.2.1) / 2,
       (((p :: ps).map (fun q : Point => q.2.2)).foldr max p.2.2
          + ((p :: ps).map (fun q : Point => q.2.2)).foldr min p.2.2) / 2)

/-- The preprocessing loop of `align_points`: an empty buffer gets a single
point at the center, and a dangling new-path point is completed into a
degenerate curve by a zero-length line. -/
def align_prep (mob : VMobject) : VMobject :=
  let mob1 := if mob.points.length = 0 then start_new_path mob (get_center mob) else mob
  if has_new_path_started mob1 then (add_line_to mob1 (get_last_point mob1)).getD mob1
  else mob1

/-- The inner `get_nth_subpath` of `align_points`: a missing subpath is
replaced by a null path of one curve at the last available endpoint. -/
def get_nth_subpath (path_list : List (List Point)) (n : ℕ) : List Point :=
  if path_list.length ≤ n then List.replicate 4 ((path_list.getLastD []).getLastD pt0)
  else path_list.getD n []

/-- `max(0, (lb - la) // nppcc)` with Python floor division. -/
def align_diff (lb la : ℕ) : ℕ :=
  (max 0 (Int.fdiv ((lb : ℤ) - (la : ℤ)) 4)).toNat

/-- The per-subpath alignment loop of `align_points`: subpath `n` of each
side, with `diff1`/`diff2` curves inserted. -/
def align_pieces (subpaths1 subpaths2 : List (List Point)) : List (List Point × List Point) :=
  (List.range (max subpaths1.length subpaths2.length)).map (fun n =>
    (insert_n_curves_to_point_list
        (align_diff (get_nth_subpath subpaths2 n).length (get_nth_subpath subpaths1 n).length)
        (get_nth_subpath subpaths1 n),
     insert_n_curves_to_point_list
        (align_diff (get_nth_subpath subpaths1 n).length (get_nth_subpath subpaths2 n).length)
        (get_nth_subpath subpaths2 n)))

/-- Main path of the source's `align_points` after the early-equal-count
return: preprocess both sides, align subpath pairs, and replace both point
buffers. -/
def align_points_core (self vmobject : VMobject) : VMobject × VMobject :=
  (set_points (align_prep self)
      ((align_pieces (get_subpaths (align_prep self))
          (get_subpaths (align_prep vmobject))).map Prod.fst).flatten,
   set_points (align_prep vmobject)
      ((align_pieces (get_subpaths (align_prep self))
          (get_subpaths (align_prep vmobject))).map Prod.snd).flatten)

/-- The source's `align_points`: styles are aligned first, then the point
buffers are left unchanged when their counts already agree, and otherwise
rebuilt by the per-subpath alignment. -/
def align_points (self vmobject : VMobject) : VMobject × VMobject :=
  if (align_rgbas self vmobject).1.points.length
      = (align_rgbas self vmobject).2.points.length then
    align_rgbas self vmobject
  else
    align_points_core (align_rgbas self vmobject).1 (align_rgbas self vmobject).2

lemma add_cubic_some (m : VMobject) (h1 h2 a3 : Point) (hne : m.points ≠ []) :
    add_cubic_bezier_curve_to m h1 h2 a3
      = some (append_points m
          (if has_new_path_started m then [h1, h2, a3]
           else [get_last_point m, h1, h2, a3])) := by
  unfold add_cubic_bezier_curve_to
  rw [if_neg hne]
  by_cases hb : has_new_path_started m = true
  · rw [if_pos hb, if_pos hb]
  · rw [if_neg hb, if_neg hb]
    rfl

lemma add_line_to_some_length (m : VMobject) (p : Point) (hne : m.points ≠ []) :
    ∃ m2, add_line_to m p = some m2
      ∧ m2.points.length
          = m.points.length + (if has_new_path_started m then 3 else 4)
      ∧ m2.tolerance_for_point_equality = m.tolerance_for_point_equality := by
  unfold add_line_to
  rw [add_cubic_some m _ _ _ hne]
  refine ⟨_, rfl, ?_, rfl⟩
  by_cases hb : has_new_path_started m = true
  · simp [hb, append_points]
  · simp [hb, append_points]

lemma align_prep_mod4 (m : VMobject) (hinv : path_invariant m.points) :
    (align_prep m).points.length % 4 = 0 := by
  unfold align_prep
  by_cases h0 : m.points.length = 0
  · rw [if_pos h0]
    show ((if has_new_path_started (start_new_path m (get_center m)) = true then
        (add_line_to (start_new_path m (get_center m))
          (get_last_point (start_new_path m (get_center m)))).getD
          (start_new_path m (get_center m))
      else start_new_path m (get_center m))).points.length % 4 = 0
    have hm1len : (start_new_path m (get_center m)).points.length = 1 := by
      simp [start_new_path, append_points, h0]
    have hb : has_new_path_started (start_new_path m (get_center m)) = true := by
      rw [has_new_path_started_iff]
      omega
    rw [if_pos hb]
    obtain ⟨m2, hm2, hm2len, _⟩ := add_line_to_some_length (start_new_path m (get_center m)) _
      (by intro hh; rw [hh] at hm1len; simp at hm1len)
    rw [hm2]
    simp only [Option.getD_some]
    rw [hb] at hm2len
    simp only [if_true] at hm2len
    omega
  · rw [if_neg h0]
    show ((if has_new_path_started m = true then
        (add_line_to m (get_last_point m)).getD m else m)).points.length % 4 = 0
    by_cases hb : has_new_path_started m = true
    · rw [if_pos hb]
      have hne : m.points ≠ [] := by
        intro hh
        rw [hh] at h0
        simp at h0
      obtain ⟨m2, hm2, hm2len, _⟩ := add_line_to_some_length m (get_last_point m) hne
      rw [hm2]
      simp only [Option.getD_some]
      rw [hb] at hm2len
      simp only [if_true] at hm2len
      have hb1 := (has_new_path_started_iff m).mp hb
      omega
    · rw [if_neg hb]
      have hb1 : ¬ m.points.length % 4 = 1 := fun hc => hb ((has_new_path_started_iff m).mpr hc)
      rcases hinv with hi | hi
      · exact hi
      · exact absurd hi hb1

lemma get_subpaths_length_facts (m : VMobject) (h4 : m.points.length % 4 = 0) :
    ∀ r ∈ get_subpaths m, r.length % 4 = 0 ∧ 4 ≤ r.length := by
  intro r hr
  unfold get_subpaths get_subpaths_from_points gen_subpaths_from_points at hr
  rw [List.mem_filter] at hr
  have h1 : r ∈ subpath_runs m.tolerance_for_point_equality m.points := hr.1
  refine ⟨subpath_runs_mod4 _ _ h4 r h1, ?_⟩
  have h2 := hr.2
  simp only [decide_eq_true_eq] at h2
  exact h2

lemma get_nth_subpath_facts (m : VMobject) (h4 : m.points.length % 4 = 0) (n : ℕ) :
    ∃ a : ℕ, 1 ≤ a ∧ (get_nth_subpath (get_subpaths m) n).length = 4 * a := by
  unfold get_nth_subpath
  by_cases hc : (get_subpaths m).length ≤ n
  · rw [if_pos hc]
    exact ⟨1, le_refl 1, by simp⟩
  · rw [if_neg hc]
    have hlt : n < (get_subpaths m).length := by omega
    have hmem : (get_subpaths m).getD n [] ∈ get_subpaths m := by
      rw [List.getD_eq_getElem (get_subpaths m) [] hlt]
      exact List.getElem_mem hlt
    obtain ⟨hm4, hge⟩ := get_subpaths_length_facts m h4 _ hmem
    exact ⟨((get_subpaths m).getD n []).length / 4, by omega, by omega⟩

lemma align_diff_eq (lb la : ℕ) : align_diff lb la = (lb - la) / 4 := by
  unfold align_diff
  rw [Int.fdiv_eq_ediv _ (by norm_num)]
  omega

lemma insert_length_dvd4 (n : ℕ) (ps : List Point) :
    (insert_n_curves_to_point_list n ps).length % 4 = 0 := by
  unfold insert_n_curves_to_point_list
  by_cases h1 : ps.length = 1
  · rw [if_pos h1]
    simp [Nat.mul_mod_right]
  · rw [if_neg h1]
    show (((get_cubic_bezier_tuples_from_points ps).zip
        (split_factors (get_cubic_bezier_tuples_from_points ps).length
          ((get_cubic_bezier_tuples_from_points ps).length + n))).map
        (fun qs : Quad × ℕ => curve_block qs.1 qs.2)).flatten.length % 4 = 0
    rw [List.length_flatten]
    have hdvd : (4 : ℕ) ∣ ((((get_cubic_bezier_tuples_from_points ps).zip
        (split_factors (get_cubic_bezier_tuples_from_points ps).length
          ((get_cubic_bezier_tuples_from_points ps).length + n))).map
        (fun qs : Quad × ℕ => curve_block qs.1 qs.2)).map List.length).sum := by
      apply List.dvd_sum
      intro x hx
      rw [List.map_map, List.mem_map] at hx
      obtain ⟨qs, _, hqs⟩ := hx
      rw [← hqs]
      simp only [Function.comp]
      rw [curve_block_length]
      exact Dvd.intro qs.2 rfl
    omega

lemma align_piece_lengths (m1 m2 : VMobject)
    (h1 : path_invariant m1.points) (h2 : path_invariant m2.points) (n : ℕ) :
    ∃ a b : ℕ, 1 ≤ a ∧ 1 ≤ b
      ∧ (insert_n_curves_to_point_list
          (align_diff (get_nth_subpath (get_subpaths (align_prep m2)) n).length
            (get_nth_subpath (get_subpaths (align_prep m1)) n).length)
          (get_nth_subpath (get_subpaths (align_prep m1)) n)).length = 4 * max a b
      ∧ (insert_n_curves_to_point_list
          (align_diff (get_nth_subpath (get_subpaths (align_prep m1)) n).length
            (get_nth_subpath (get_subpaths (align_prep m2)) n).length)
          (get_nth_subpath (get_subpaths (align_prep m2)) n)).length = 4 * max a b := by
  have h41 : (align_prep m1).points.length % 4 = 0 := align_prep_mod4 m1 h1
  have h42 : (align_prep m2).points.length % 4 = 0 := align_prep_mod4 m2 h2
  obtain ⟨a, ha1, ha⟩ := get_nth_subpath_facts (align_prep m1) h41 n
  obtain ⟨b, hb1, hb⟩ := get_nth_subpath_facts (align_prep m2) h42 n
  refine ⟨a, b, ha1, hb1, ?_, ?_⟩
  · rw [insert_length_eq _ _ (by omega) (by rw [ha]; omega)]
    rw [ha, align_diff_eq, hb]
    omega
  · rw [insert_length_eq _ _ (by omega) (by rw [hb]; omega)]
    rw [hb, align_diff_eq, ha]
    omega

lemma align_points_core_equal_lengths (m1 m2 : VMobject)
    (h1 : path_invariant m1.points) (h2 : path_invariant m2.points) :
    (align_points_core m1 m2).1.points.length
      = (align_points_core m1 m2).2.points.length := by
  unfold align_points_core
  simp only [set_points]
  rw [List.length_flatten, List.length_flatten]
  unfold align_pieces
  rw [List.map_map, List.map_map, List.map_map, List.map_map]
  apply congrArg List.sum
  apply List.map_congr_left
  intro n _
  simp only [Function.comp]
  obtain ⟨a, b, _, _, hfst, hsnd⟩ := align_piece_lengths m1 m2 h1 h2 n
  rw [hfst, hsnd]

lemma align_prep_noop (m : VMobject) (hlen0 : m.points.length ≠ 0)
    (hmod : m.points.length % 4 = 0) : align_prep m = m := by
  unfold align_prep
  rw [if_neg hlen0]
  show (if has_new_path_started m = true then
      (add_line_to m (get_last_point m)).getD m else m) = m
  rw [if_neg]
  rw [has_new_path_started_iff]
  omega

def c1_rgba : RGBA := ((0 : ℚ), 0, 0, 1)

def c1_A_pts : List Point :=
  [((0 : ℚ), 0, 0), ((1 : ℚ), 0, 0), ((2 : ℚ), 0, 0), ((3 : ℚ), 0, 0),
   ((3 : ℚ), 0, 0), ((4 : ℚ), 0, 0), ((5 : ℚ), 0, 0), ((6 : ℚ), 0, 0)]

def c1_B_pts : List Point :=
  [((0 : ℚ), 0, 0), ((1 : ℚ), 0, 0), ((2 : ℚ), 0, 0), ((3 : ℚ), 0, 0),
   ((3 : ℚ), 0, 0), ((4 : ℚ), 0, 0), ((5 : ℚ), 0, 0), ((6 : ℚ), 0, 0),
   ((6 : ℚ), 0, 0), ((7 : ℚ), 0, 0), ((8 : ℚ), 0, 0), ((9 : ℚ), 0, 0),
   ((9 : ℚ), 0, 0), ((10 : ℚ), 0, 0), ((11 : ℚ), 0, 0), ((12 : ℚ), 0, 0),
   ((12 : ℚ), 0, 0), ((13 : ℚ), 0, 0), ((14 : ℚ), 0, 0), ((15 : ℚ), 0, 0)]

def c1_A : VMobject :=
  ⟨c1_A_pts, [c1_rgba], [c1_rgba], [c1_rgba], 0, 0, pt0, 0, 1 / 1000000⟩

def c1_B : VMobject :=
  ⟨c1_B_pts, [c1_rgba], [c1_rgba], [c1_rgba], 0, 0, pt0, 0, 1 / 1000000⟩

lemma c1_align_rgbas_eval : align_rgbas c1_A c1_B = (c1_A, c1_B) := rfl

lemma c1_subpaths_A : get_subpaths c1_A = [c1_A_pts] := by
  norm_num [get_subpaths, get_subpaths_from_points, gen_subpaths_from_points,
    split_boundaries, runs_of_boundaries, discontinuity_filter, consider_points_equals,
    qabs, c1_A, c1_A_pts, List.range_succ]

lemma c1_subpaths_B : get_subpaths c1_B = [c1_B_pts] := by
  norm_num [get_subpaths, get_subpaths_from_points, gen_subpaths_from_points,
    split_boundaries, runs_of_boundaries, discontinuity_filter, consider_points_equals,
    qabs, c1_B, c1_B_pts, List.range_succ]

lemma c1_pieces_eval :
    align_pieces [c1_A_pts] [c1_B_pts]
      = [(insert_n_curves_to_point_list 3 c1_A_pts,
          insert_n_curves_to_point_list 0 c1_B_pts)] := by
  have hd1 : align_diff 20 8 = 3 := by decide
  have hd2 : align_diff 8 20 = 0 := by decide
  have hlA : c1_A_pts.length = 8 := by decide
  have hlB : c1_B_pts.length = 20 := by decide
  unfold align_pieces get_nth_subpath
  simp [hlA, hlB, hd1, hd2, List.range_succ]

lemma c1_concrete_lengths :
    (align_points c1_A c1_B).1.points.length = 20
    ∧ (align_points c1_A c1_B).2.points.length = 20 := by
  have hne : ¬ ((align_rgbas c1_A c1_B).1.points.length
      = (align_rgbas c1_A c1_B).2.points.length) := by
    rw [c1_align_rgbas_eval]
    decide
  have hstep : align_points c1_A c1_B = align_points_core c1_A c1_B := by
    unfold align_points
    rw [if_neg hne, c1_align_rgbas_eval]
  rw [hstep]
  unfold align_points_core
  have hprepA : align_prep c1_A = c1_A := align_prep_noop c1_A (by decide) (by decide)
  have hprepB : align_prep c1_B = c1_B := align_prep_noop c1_B (by decide) (by decide)
  rw [hprepA, hprepB, c1_subpaths_A, c1_subpaths_B, c1_pieces_eval]
  simp only [set_points, List.map_cons, List.map_nil, List.flatten_cons, List.flatten_nil,
    List.append_nil]
  constructor
  · rw [insert_length_eq 3 c1_A_pts (by decide) (by decide)]
    decide
  · rw [insert_length_eq 0 c1_B_pts (by decide) (by decide)]
    decide

/-- CLAIM C1: after `align_points(A, B)`, for any two path-bearing shapes
whose buffers satisfy the length invariant, A's and B's point buffers have
equal length; and aligning a single-subpath 2-curve buffer with a
single-subpath 5-curve buffer leaves both shapes with exactly 20 points (5
curves) each. -/
theorem thm_c1_align_points_equal_lengths :
    (∀ m1 m2 : VMobject, path_invariant m1.points → path_invariant m2.points →
      (align_points m1 m2).1.points.length = (align_points m1 m2).2.points.length)
    ∧ (align_points c1_A c1_B).1.points.length = 20
    ∧ (align_points c1_A c1_B).2.points.length = 20 := by
  refine ⟨?_, c1_concrete_lengths.1, c1_concrete_lengths.2⟩
  intro m1 m2 h1 h2
  unfold align_points
  by_cases heq : (align_rgbas m1 m2).1.points.length = (align_rgbas m1 m2).2.points.length
  · rw [if_pos heq]
    exact heq
  · rw [if_neg heq]
    exact align_points_core_equal_lengths (align_rgbas m1 m2).1 (align_rgbas m1 m2).2 h1 h2

/-- Witness for C1 at the concrete 2-curve versus 5-curve pair. -/
theorem wit_c1_align_points_equal_lengths :
    path_invariant c1_A.points ∧ path_invariant c1_B.points ∧
      (align_points c1_A c1_B).1.points.length
        = (align_points c1_A c1_B).2.points.length :=
  ⟨by decide, by decide,
    thm_c1_align_points_equal_lengths.1 c1_A c1_B (by decide) (by decide)⟩

lemma add_cubic_invariant (m : VMobject) (h1 h2 a3 : Point) (m2 : VMobject)
    (hinv : path_invariant m.points)
    (heq : add_cubic_bezier_curve_to m h1 h2 a3 = some m2) :
    path_invariant m2.points := by
  by_cases hne : m.points = []
  · unfold add_cubic_bezier_curve_to at heq
    rw [if_pos hne] at heq
    cases heq
  · rw [add_cubic_some m _ _ _ hne] at heq
    have hm2 := Option.some.inj heq
    rw [← hm2]
    have hlen0 : m.points.length ≠ 0 := by
      intro hc
      exact hne (List.length_eq_zero.mp hc)
    by_cases hb : has_new_path_started m = true
    · have hb1 := (has_new_path_started_iff m).mp hb
      rw [if_pos hb]
      unfold path_invariant at hinv ⊢
      simp only [append_points, List.length_append, List.length_cons, List.length_nil]
      omega
    · have hb1 : ¬ m.points.length % 4 = 1 :=
        fun hc => hb ((has_new_path_started_iff m).mpr hc)
      rw [if_neg hb]
      unfold path_invariant at hinv ⊢
      simp only [append_points, List.length_append, List.length_cons, List.length_nil]
      omega

lemma add_line_to_invariant (m : VMobject) (p : Point) (m2 : VMobject)
    (hinv : path_invariant m.points) (heq : add_line_to m p = some m2) :
    path_invariant m2.points :=
  add_cubic_invariant m _ _ _ m2 hinv heq

lemma smooth_core_invariant (m : VMobject) (handle2 : Option Point) (p : Point)
    (m2 : VMobject) (hinv : path_invariant m.points)
    (heq : smooth_curve_core m handle2 p = some m2) :
    path_invariant m2.points := by
  unfold smooth_curve_core at heq
  split at heq
  · exact add_line_to_invariant m p m2 hinv heq
  · split at heq
    · cases heq
    · have hm2 := Option.some.inj heq
      rw [← hm2]
      rename_i hb hne
      have hb1 : ¬ m.points.length % 4 = 1 :=
        fun hc => hb ((has_new_path_started_iff m).mpr hc)
      have hlen0 : m.points.length ≠ 0 := by
        intro hc
        exact hne (List.length_eq_zero.mp hc)
      unfold path_invariant at hinv ⊢
      simp only [append_points, List.length_append, List.length_cons, List.length_nil]
      omega

lemma insert_n_curves_invariant (m : VMobject) (n : ℕ)
    (hinv : path_invariant m.points) :
    path_invariant (insert_n_curves m n).points := by
  have hshape : insert_n_curves m n
      = if has_new_path_started m then
          append_points (set_points m (insert_n_curves_to_point_list n m.points))
            [get_last_point m]
        else set_points m (insert_n_curves_to_point_list n m.points) := by
    unfold insert_n_curves
    by_cases hb : has_new_path_started m = true <;> simp [hb]
  rw [hshape]
  have hdvd := insert_length_dvd4 n m.points
  by_cases hb : has_new_path_started m = true
  · rw [if_pos hb]
    unfold path_invariant
    simp only [append_points, set_points, List.length_append, List.length_cons,
      List.length_nil]
    omega
  · rw [if_neg hb]
    unfold path_invariant
    simp only [set_points]
    omega

lemma align_pieces_fst_mod4 (s1 s2 : List (List Point)) :
    ((align_pieces s1 s2).map Prod.fst).flatten.length % 4 = 0 := by
  rw [List.length_flatten]
  have hdvd : ∀ x ∈ ((align_pieces s1 s2).map Prod.fst).map List.length, (4 : ℕ) ∣ x := by
    intro x hx
    rw [List.map_map] at hx
    unfold align_pieces at hx
    rw [List.map_map, List.mem_map] at hx
    obtain ⟨k, _, hk⟩ := hx
    rw [← hk]
    simp only [Function.comp]
    rw [Nat.dvd_iff_mod_eq_zero]
    exact insert_length_dvd4 _ _
  have := List.dvd_sum hdvd
  omega

lemma align_pieces_snd_mod4 (s1 s2 : List (List Point)) :
    ((align_pieces s1 s2).map Prod.snd).flatten.length % 4 = 0 := by
  rw [List.length_flatten]
  have hdvd : ∀ x ∈ ((align_pieces s1 s2).map Prod.snd).map List.length, (4 : ℕ) ∣ x := by
    intro x hx
    rw [List.map_map] at hx
    unfold align_pieces at hx
    rw [List.map_map, List.mem_map] at hx
    obtain ⟨k, _, hk⟩ := hx
    rw [← hk]
    simp only [Function.comp]
    rw [Nat.dvd_iff_mod_eq_zero]
    exact insert_length_dvd4 _ _
  have := List.dvd_sum hdvd
  omega

lemma align_core_points_mod4 (m1 m2 : VMobject) :
    (align_points_core m1 m2).1.points.length % 4 = 0
    ∧ (align_points_core m1 m2).2.points.length % 4 = 0 := by
  unfold align_points_core
  simp only [set_points]
  exact ⟨align_pieces_fst_mod4 _ _, align_pieces_snd_mod4 _ _⟩

def c6_m : VMobject := ⟨[pt0], [], [], [], 0, 0, pt0, 0, 1 / 1000000⟩

/-- CLAIM C6 counterexample: `start_new_path` on an awaiting-completion
buffer of a single point satisfies the invariant before the call but
violates it after, since the result has 2 points and `2 mod 4` is neither 0
nor 1. -/
theorem cex_c6_start_new_path_breaks_invariant :
    path_invariant c6_m.points
    ∧ ¬ path_invariant (start_new_path c6_m ((1 : ℚ), 0, 0)).points := by
  decide

/-- CLAIM C6 as amended: `add_cubic_bezier_curve_to`, `add_line_to`,
`add_smooth_curve_to`, `insert_n_curves` and `align_points` preserve the
invariant `length mod 4 in {0,1}` from every invariant state (for the
fallible operations, whenever they return without raising), while
`start_new_path` preserves it exactly from the states with
`length mod 4 == 0`. -/
theorem thm_c6_invariant_amended :
    (∀ (m : VMobject) (p : Point), m.points.length % 4 = 0 →
        path_invariant (start_new_path m p).points)
    ∧ (∀ (m : VMobject) (h1 h2 a3 : Point) (m2 : VMobject), path_invariant m.points →
        add_cubic_bezier_curve_to m h1 h2 a3 = some m2 → path_invariant m2.points)
    ∧ (∀ (m : VMobject) (p : Point) (m2 : VMobject), path_invariant m.points →
        add_line_to m p = some m2 → path_invariant m2.points)
    ∧ (∀ (m : VMobject) (pts : List Point) (m2 : VMobject), path_invariant m.points →
        add_smooth_curve_to m pts = some m2 → path_invariant m2.points)
    ∧ (∀ (m : VMobject) (n : ℕ), path_invariant m.points →
        path_invariant (insert_n_curves m n).points)
    ∧ (∀ m1 m2 : VMobject, path_invariant m1.points → path_invariant m2.points →
        path_invariant (align_points m1 m2).1.points
        ∧ path_invariant (align_points m1 m2).2.points) := by
  refine ⟨?_, ?_, ?_, ?_, ?_, ?_⟩
  · intro m p h4
    unfold path_invariant
    simp only [start_new_path, append_points, List.length_append, List.length_cons,
      List.length_nil]
    omega
  · exact add_cubic_invariant
  · exact add_line_to_invariant
  · intro m pts m2 hinv heq
    match pts with
    | [] => cases heq
    | [p] => exact smooth_core_invariant m none p m2 hinv heq
    | [h2v, p] => exact smooth_core_invariant m (some h2v) p m2 hinv heq
    | p :: q :: r :: rest => cases heq
  · exact insert_n_curves_invariant
  · intro m1 m2 h1 h2
    unfold align_points
    by_cases heq : (align_rgbas m1 m2).1.points.length
        = (align_rgbas m1 m2).2.points.length
    · rw [if_pos heq]
      exact ⟨h1, h2⟩
    · rw [if_neg heq]
      have := align_core_points_mod4 (align_rgbas m1 m2).1 (align_rgbas m1 m2).2
      exact ⟨Or.inl this.1, Or.inl this.2⟩

def c6_w : VMobject :=
  ⟨[((0 : ℚ), 0, 0), ((1 : ℚ), 0, 0), ((2 : ℚ), 0, 0), ((3 : ℚ), 0, 0)],
   [], [], [], 0, 0, pt0, 0, 1 / 1000000⟩

/-- Witness for the amended C6: `start_new_path` from a complete 4-point
buffer lands in the awaiting-completion state, which satisfies the
invariant. -/
theorem wit_c6_invariant_amended :
    c6_w.points.length % 4 = 0
    ∧ path_invariant (start_new_path c6_w ((5 : ℚ), 0, 0)).points :=
  ⟨by decide, thm_c6_invariant_amended.1 c6_w ((5 : ℚ), 0, 0) (by decide)⟩
